import Mathlib

/-!
Shallow embedding of the Minesweeper inference engine from `src/minesweeper.py`
(classes `Sentence` and `MinesweeperAI`).

Modelling notes:
- A board cell is a pair of naturals; Python `int` counts are modelled as `ℤ`
  (counts may be decremented and differenced).
- Python mutates `Sentence` objects in place; here every operation returns the
  new state.  `Sentence.mark_safe` / `mark_mine` return the sentence together
  with the `1`/`0` progress flag that the Python methods return.
- Python iterates over hash sets in an unspecified order.  Removing distinct
  cells from sentences commutes and re-adding a present element to a set is a
  no-op, so the final state and the zero-ness of the mutation counter do not
  depend on that order; the embedding fixes the canonical sorted order
  (`cellList`).
- `MinesweeperAI.update` loops until a pass makes no mutation.  The pass
  counter counts exactly the cell-membership removals, so each repeated pass
  strictly decreases the total number of cell memberships `phi`; the loop is
  embedded with fuel `phi st + 1`, which is proved sufficient
  (`updateLoop_some_of_lt`).
- The `add_knowledge` propagation/inference loop can diverge on arbitrary
  (untruthful) states, so it is embedded with explicit fuel and returns
  `none` when the fuel runs out.
-/

abbrev Cell := ℕ × ℕ

/-- Row-major order on cells, used only to fix a canonical iteration order
for Python's unordered hash sets. -/
def cellLe (a b : Cell) : Prop :=
  a.1 < b.1 ∨ (a.1 = b.1 ∧ a.2 ≤ b.2)

instance : DecidableRel cellLe := fun a b => by
  unfold cellLe; infer_instance

instance : IsTrans Cell cellLe :=
  ⟨by intro a b c h1 h2; unfold cellLe at *; omega⟩

instance : IsAntisymm Cell cellLe :=
  ⟨by intro a b h1 h2; unfold cellLe at *; ext <;> omega⟩

instance : IsTotal Cell cellLe :=
  ⟨by intro a b; unfold cellLe; omega⟩

/-- Canonical list of the elements of a finite cell set, in sorted order
(insertion sort, so that concrete runs reduce inside the kernel). -/
def cellList (s : Finset Cell) : List Cell :=
  Quot.liftOn s.val (fun l => List.insertionSort cellLe l)
    (fun _ _ h => List.eq_of_perm_of_sorted
      ((List.perm_insertionSort cellLe _).trans
        (h.trans (List.perm_insertionSort cellLe _).symm))
      (List.sorted_insertionSort cellLe _) (List.sorted_insertionSort cellLe _))

/-- `Sentence(cells, count)`: a set of board cells and a count of how many of
them are mines. -/
@[ext]
structure Sentence where
  cells : Finset Cell
  count : ℤ
deriving DecidableEq

/-- `Sentence.known_mines`: if `len(cells) == count`, every cell is a mine. -/
def Sentence.known_mines (s : Sentence) : Finset Cell :=
  if (s.cells.card : ℤ) = s.count then s.cells else ∅

/-- `Sentence.known_safes`: if `count == 0`, every cell is safe. -/
def Sentence.known_safes (s : Sentence) : Finset Cell :=
  if s.count = 0 then s.cells else ∅

/-- `Sentence.mark_mine`: remove the cell and decrement the count if present,
returning `1` for progress, else `0`. -/
def Sentence.mark_mine (s : Sentence) (cell : Cell) : Sentence × ℕ :=
  if cell ∈ s.cells then (⟨s.cells.erase cell, s.count - 1⟩, 1) else (s, 0)

/-- `Sentence.mark_safe`: remove the cell (count unchanged) if present,
returning `1` for progress, else `0`. -/
def Sentence.mark_safe (s : Sentence) (cell : Cell) : Sentence × ℕ :=
  if cell ∈ s.cells then (⟨s.cells.erase cell, s.count⟩, 1) else (s, 0)

/-- State of the `MinesweeperAI` object. -/
@[ext]
structure MinesweeperAI where
  height : ℕ
  width : ℕ
  moves_made : Finset Cell
  mines : Finset Cell
  safes : Finset Cell
  knowledge : List Sentence
deriving DecidableEq

/-- Fresh AI state, as built by `MinesweeperAI.__init__`. -/
def initAI (height width : ℕ) : MinesweeperAI :=
  ⟨height, width, ∅, ∅, ∅, []⟩

/-- `MinesweeperAI.mark_mine`: add the cell to `mines` and call
`Sentence.mark_mine` on every sentence, summing the progress flags. -/
def MinesweeperAI.mark_mine (st : MinesweeperAI) (cell : Cell) : MinesweeperAI × ℕ :=
  let results := st.knowledge.map (fun s => s.mark_mine cell)
  ({ st with mines := insert cell st.mines, knowledge := results.map Prod.fst },
   (results.map Prod.snd).sum)

/-- `MinesweeperAI.mark_safe`: add the cell to `safes` and call
`Sentence.mark_safe` on every sentence, summing the progress flags. -/
def MinesweeperAI.mark_safe (st : MinesweeperAI) (cell : Cell) : MinesweeperAI × ℕ :=
  let results := st.knowledge.map (fun s => s.mark_safe cell)
  ({ st with safes := insert cell st.safes, knowledge := results.map Prod.fst },
   (results.map Prod.snd).sum)

/-- `for cell in cs: counter += self.mark_safe(cell)`. -/
def markSafeAll (st : MinesweeperAI) : List Cell → MinesweeperAI × ℕ
  | [] => (st, 0)
  | c :: cs =>
    let r := st.mark_safe c
    let rest := markSafeAll r.1 cs
    (rest.1, r.2 + rest.2)

/-- `for cell in cs: counter += self.mark_mine(cell)`. -/
def markMineAll (st : MinesweeperAI) : List Cell → MinesweeperAI × ℕ
  | [] => (st, 0)
  | c :: cs =>
    let r := st.mark_mine c
    let rest := markMineAll r.1 cs
    (rest.1, r.2 + rest.2)

/-- One iteration of `update`'s `for x in self.knowledge` loop, acting on the
sentence at position `i` (the sentences mutate in place, so the loop variable
is the current sentence at that position): mark all of its `known_safes`,
then all of its (now possibly shrunken) `known_mines`. -/
def updateStep (st : MinesweeperAI) (i : ℕ) : MinesweeperAI × ℕ :=
  match st.knowledge.get? i with
  | none => (st, 0)
  | some x =>
    let r1 := markSafeAll st (cellList x.known_safes)
    match r1.1.knowledge.get? i with
    | none => r1
    | some x1 =>
      let r2 := markMineAll r1.1 (cellList x1.known_mines)
      (r2.1, r1.2 + r2.2)

/-- The `for x in self.knowledge` loop over the positions in `is`. -/
def updateSteps (st : MinesweeperAI) : List ℕ → MinesweeperAI × ℕ
  | [] => (st, 0)
  | i :: is =>
    let r := updateStep st i
    let rest := updateSteps r.1 is
    (rest.1, r.2 + rest.2)

/-- One full pass of `update`'s `while` loop body: extract from every
sentence, then re-apply every known safe cell and every known mine. -/
def updatePass (st : MinesweeperAI) : MinesweeperAI × ℕ :=
  let r1 := updateSteps st (List.range st.knowledge.length)
  let r2 := markSafeAll r1.1 (cellList r1.1.safes)
  let r3 := markMineAll r2.1 (cellList r2.1.mines)
  (r3.1, r1.2 + (r2.2 + r3.2))

/-- Total number of cell memberships across all sentences: the potential
function that every mutation of a pass strictly decreases. -/
def phi (st : MinesweeperAI) : ℕ :=
  (st.knowledge.map (fun s => s.cells.card)).sum

/-- `update`'s `while counter:` loop with explicit fuel: run a pass, stop as
soon as a pass makes zero mutations. -/
def updateLoop : ℕ → MinesweeperAI → Option MinesweeperAI
  | 0, _ => none
  | fuel + 1, st =>
    let r := updatePass st
    if r.2 = 0 then some r.1 else updateLoop fuel r.1

/-- `MinesweeperAI.update`: iterate passes to the zero-mutation fixpoint.
Fuel `phi st + 1` always suffices (`updateLoop_some_of_lt`), so the `getD`
default is never used. -/
def MinesweeperAI.update (st : MinesweeperAI) : MinesweeperAI :=
  (updateLoop (phi st + 1) st).getD st

/-- The candidate sentence derived from a subset pair in `inference`. -/
def diffSentence (s1 s2 : Sentence) : Sentence :=
  ⟨s1.cells \ s2.cells, s1.count - s2.count⟩

/-- The `new_data` list built by `inference`'s nested loops, in iteration
order: for each nonempty `s1` and each nonempty `s2 ≠ s1` with
`s2.cells ⊆ s1.cells`, emit the difference unless it is already in
`self.knowledge`. -/
def inferenceNew (kn : List Sentence) : List Sentence :=
  kn.flatMap (fun s1 =>
    if s1.cells = ∅ then []
    else kn.filterMap (fun s2 =>
      if s2.cells = ∅ then none
      else if s1 ≠ s2 ∧ s2.cells ⊆ s1.cells then
        (if diffSentence s1 s2 ∈ kn then none else some (diffSentence s1 s2))
      else none))

/-- The `trash` list built by `inference`'s nested loops: each empty-celled
sentence reached as `s1`, plus each empty-celled sentence reached as `s2`
inside a nonempty `s1`'s inner loop. -/
def inferenceTrash (kn : List Sentence) : List Sentence :=
  kn.flatMap (fun s1 =>
    if s1.cells = ∅ then [s1]
    else kn.filter (fun s2 => decide (s2.cells = ∅)))

/-- `MinesweeperAI.inference`: collect `new_data`, purge the trashed
sentences from `knowledge`, and return the derived sentences (not inserted). -/
def MinesweeperAI.inference (st : MinesweeperAI) : MinesweeperAI × List Sentence :=
  ({ st with
      knowledge := st.knowledge.filter (fun x => decide (x ∉ inferenceTrash st.knowledge)) },
   inferenceNew st.knowledge)

/-- In-bounds neighbours of `(x, y)` excluding the cell itself, exactly as
built by `add_knowledge`'s two `range(max(0,·-1), min(·+2, bound))` loops. -/
def neighborsOf (height width : ℕ) (x y : ℕ) : Finset Cell :=
  ((Finset.Ico (x - 1) (min (x + 2) height)) ×ˢ
    (Finset.Ico (y - 1) (min (y + 2) width))).erase (x, y)

/-- `add_knowledge`'s trailing `while new_data:` loop, with explicit fuel:
run `inference`; if nothing new was derived, stop; otherwise append the new
sentences, re-run `update`, and repeat. -/
def akLoop : ℕ → MinesweeperAI → Option MinesweeperAI
  | 0, st =>
    let r := st.inference
    if r.2 = [] then some r.1 else none
  | fuel + 1, st =>
    let r := st.inference
    if r.2 = [] then some r.1
    else akLoop fuel (MinesweeperAI.update { r.1 with knowledge := r.1.knowledge ++ r.2 })

/-- `MinesweeperAI.add_knowledge`: record the move, mark the cell safe,
append the unfiltered neighbour sentence, then propagate and infer to a
fixpoint (with fuel for the possibly-diverging inference loop). -/
def MinesweeperAI.add_knowledge (st : MinesweeperAI) (cell : Cell) (count : ℤ)
    (fuel : ℕ) : Option MinesweeperAI :=
  let st1 := { st with moves_made := insert cell st.moves_made }
  let st2 := (st1.mark_safe cell).1
  let st3 := { st2 with
    knowledge := st2.knowledge ++
      [(⟨neighborsOf st.height st.width cell.1 cell.2, count⟩ : Sentence)] }
  akLoop fuel st3.update

/-- `MinesweeperAI.make_safe_move`: scan `safes` and return the first cell
not yet played, or `none`. -/
def MinesweeperAI.make_safe_move (st : MinesweeperAI) : Option Cell :=
  (cellList st.safes).find? (fun x => decide (x ∉ st.moves_made))

/-- `MinesweeperAI.make_random_move`: scan the grid row-major and return the
first cell that is neither a known mine nor already played, or `none`. -/
def MinesweeperAI.make_random_move (st : MinesweeperAI) : Option Cell :=
  ((List.range st.height).flatMap
      (fun x => (List.range st.width).map (fun y => (x, y)))).find?
    (fun c => decide (c ∉ st.mines) && decide (c ∉ st.moves_made))

/-- A sentence is truthful for the mine set `M` when its count is exactly the
number of its cells that are mines. -/
def Sentence.soundFor (s : Sentence) (M : Finset Cell) : Prop :=
  s.count = ((s.cells ∩ M).card : ℤ)

/-- Truthfulness of a whole AI state for the mine set `M`: every sentence is
truthful, no known-safe cell is a mine, every known mine is a mine. -/
def soundState (st : MinesweeperAI) (M : Finset Cell) : Prop :=
  (∀ s ∈ st.knowledge, s.soundFor M) ∧ st.safes ∩ M = ∅ ∧ st.mines ⊆ M

instance (s : Sentence) (M : Finset Cell) : Decidable (s.soundFor M) := by
  unfold Sentence.soundFor; infer_instance

instance (st : MinesweeperAI) (M : Finset Cell) : Decidable (soundState st M) := by
  unfold soundState; infer_instance

/-- A sentence `D` is a qualifying subset-difference derivation from the
knowledge list: it is the difference of an ordered pair of distinct nonempty
sentences with the second's cells inside the first's, and it is not equal to
any sentence already present. -/
def derivableFrom (kn : List Sentence) (D : Sentence) : Prop :=
  ∃ A ∈ kn, A.cells ≠ ∅ ∧ ∃ B ∈ kn, B.cells ≠ ∅ ∧ A ≠ B ∧ B.cells ⊆ A.cells ∧
    D = diffSentence A B ∧ D ∉ kn

/-- The fields that the propagation machinery never shrinks or rewrites:
grid size and played moves stay equal, known safes and mines only grow. -/
def framePreserved (st st' : MinesweeperAI) : Prop :=
  st'.height = st.height ∧ st'.width = st.width ∧
    st'.moves_made = st.moves_made ∧ st.safes ⊆ st'.safes ∧ st.mines ⊆ st'.mines

/-- A state whose knowledge list contains two ordered subset pairs yielding
the same difference sentence within a single `inference` pass. -/
def exInferState : MinesweeperAI :=
  { height := 1, width := 6, moves_made := ∅, mines := ∅, safes := ∅,
    knowledge := [⟨{(0,0),(0,1),(0,2),(0,3)}, 2⟩, ⟨{(0,0),(0,1)}, 1⟩,
                  ⟨{(0,2),(0,3),(0,4),(0,5)}, 2⟩, ⟨{(0,4),(0,5)}, 1⟩] }

/-- The sentence derived twice in one pass from `exInferState`. -/
def exDup : Sentence := ⟨{(0,2),(0,3)}, 1⟩

/-- Mine set of the concrete 4×3 game used to reach a duplicated knowledge
entry through public calls only. -/
def exMinesC6 : Finset Cell := {(0,1), (1,2), (3,2)}

/-- A truthful sequence of `add_knowledge` calls on a fresh 4×3 AI (mine set
`exMinesC6`), each revealing a non-mine cell with its true neighbour mine
count. -/
def exRunC6 : Option MinesweeperAI :=
  ((((initAI 4 3).add_knowledge (0,0) 1 3).bind
      (fun s => s.add_knowledge (2,1) 2 3)).bind
    (fun s => s.add_knowledge (2,0) 0 3)).bind
    (fun s => s.add_knowledge (3,1) 1 3)

/-- Mine set of the concrete 2×2 game used by several witnesses. -/
def exMines : Finset Cell := {(1,1)}

/-- A truthful single `add_knowledge` call on a fresh 2×2 AI with mine set
`exMines`: reveal `(0,0)`, whose neighbourhood contains exactly one mine. -/
def exRun : Option MinesweeperAI :=
  (initAI 2 2).add_knowledge (0,0) 1 0

/-- A state whose single sentence has count `0`, for exercising `update`. -/
def exUpd : MinesweeperAI :=
  { height := 1, width := 2, moves_made := ∅, mines := ∅, safes := ∅,
    knowledge := [⟨{(0,0),(0,1)}, 0⟩] }

/-- A state with a known-safe unplayed cell, for exercising
`make_safe_move`. -/
def exMove : MinesweeperAI :=
  { height := 2, width := 2, moves_made := {(0,0)}, mines := ∅,
    safes := {(0,0),(0,1)}, knowledge := [] }

/-! ## Basic lemmas about the sentence operations -/

theorem Sentence.mark_safe_fst (s : Sentence) (c : Cell) :
    (s.mark_safe c).1 = ⟨s.cells.erase c, s.count⟩ := by
  unfold Sentence.mark_safe
  split
  · rfl
  · rename_i h
    rw [Finset.erase_eq_of_not_mem h]

theorem Sentence.mark_mine_fst (s : Sentence) (c : Cell) :
    (s.mark_mine c).1 =
      ⟨s.cells.erase c, if c ∈ s.cells then s.count - 1 else s.count⟩ := by
  unfold Sentence.mark_mine
  split
  · rfl
  · rename_i h
    rw [Finset.erase_eq_of_not_mem h]

theorem Sentence.mark_safe_phi (s : Sentence) (c : Cell) :
    (s.mark_safe c).1.cells.card + (s.mark_safe c).2 = s.cells.card := by
  unfold Sentence.mark_safe
  split
  · rename_i h
    have hc := Finset.card_erase_of_mem h
    have hpos : 0 < s.cells.card := Finset.card_pos.mpr ⟨c, h⟩
    simp only [hc]
    omega
  · simp

theorem Sentence.mark_mine_phi (s : Sentence) (c : Cell) :
    (s.mark_mine c).1.cells.card + (s.mark_mine c).2 = s.cells.card := by
  unfold Sentence.mark_mine
  split
  · rename_i h
    have hc := Finset.card_erase_of_mem h
    have hpos : 0 < s.cells.card := Finset.card_pos.mpr ⟨c, h⟩
    simp only [hc]
    omega
  · simp

theorem Sentence.known_safes_subset (s : Sentence) : s.known_safes ⊆ s.cells := by
  unfold Sentence.known_safes
  split
  · exact Finset.Subset.refl _
  · exact Finset.empty_subset _

theorem Sentence.known_mines_subset (s : Sentence) : s.known_mines ⊆ s.cells := by
  unfold Sentence.known_mines
  split
  · exact Finset.Subset.refl _
  · exact Finset.empty_subset _

/-! ## Field equations for the AI-level marking operations -/

theorem mark_safe_knowledge (st : MinesweeperAI) (c : Cell) :
    (st.mark_safe c).1.knowledge = st.knowledge.map (fun s => (s.mark_safe c).1) := by
  simp [MinesweeperAI.mark_safe, List.map_map, Function.comp_def]

theorem mark_safe_counter (st : MinesweeperAI) (c : Cell) :
    (st.mark_safe c).2 = (st.knowledge.map (fun s => (s.mark_safe c).2)).sum := by
  simp [MinesweeperAI.mark_safe, List.map_map, Function.comp_def]

theorem mark_safe_safes (st : MinesweeperAI) (c : Cell) :
    (st.mark_safe c).1.safes = insert c st.safes := rfl

theorem mark_safe_mines (st : MinesweeperAI) (c : Cell) :
    (st.mark_safe c).1.mines = st.mines := rfl

theorem mark_safe_moves (st : MinesweeperAI) (c : Cell) :
    (st.mark_safe c).1.moves_made = st.moves_made := rfl

theorem mark_safe_height (st : MinesweeperAI) (c : Cell) :
    (st.mark_safe c).1.height = st.height := rfl

theorem mark_safe_width (st : MinesweeperAI) (c : Cell) :
    (st.mark_safe c).1.width = st.width := rfl

theorem mark_mine_knowledge (st : MinesweeperAI) (c : Cell) :
    (st.mark_mine c).1.knowledge = st.knowledge.map (fun s => (s.mark_mine c).1) := by
  simp [MinesweeperAI.mark_mine, List.map_map, Function.comp_def]

theorem mark_mine_counter (st : MinesweeperAI) (c : Cell) :
    (st.mark_mine c).2 = (st.knowledge.map (fun s => (s.mark_mine c).2)).sum := by
  simp [MinesweeperAI.mark_mine, List.map_map, Function.comp_def]

theorem mark_mine_mines (st : MinesweeperAI) (c : Cell) :
    (st.mark_mine c).1.mines = insert c st.mines := rfl

theorem mark_mine_safes (st : MinesweeperAI) (c : Cell) :
    (st.mark_mine c).1.safes = st.safes := rfl

theorem mark_mine_moves (st : MinesweeperAI) (c : Cell) :
    (st.mark_mine c).1.moves_made = st.moves_made := rfl

theorem mark_mine_height (st : MinesweeperAI) (c : Cell) :
    (st.mark_mine c).1.height = st.height := rfl

theorem mark_mine_width (st : MinesweeperAI) (c : Cell) :
    (st.mark_mine c).1.width = st.width := rfl

/-! ## Potential-function accounting: every unit of a pass counter is one
removed cell membership -/

theorem list_phi_safe (c : Cell) (l : List Sentence) :
    ((l.map (fun s => (s.mark_safe c).1)).map (fun s => s.cells.card)).sum
      + (l.map (fun s => (s.mark_safe c).2)).sum
      = (l.map (fun s => s.cells.card)).sum := by
  induction l with
  | nil => simp
  | cons s t ih =>
    simp only [List.map_cons, List.sum_cons]
    have := Sentence.mark_safe_phi s c
    omega

theorem list_phi_mine (c : Cell) (l : List Sentence) :
    ((l.map (fun s => (s.mark_mine c).1)).map (fun s => s.cells.card)).sum
      + (l.map (fun s => (s.mark_mine c).2)).sum
      = (l.map (fun s => s.cells.card)).sum := by
  induction l with
  | nil => simp
  | cons s t ih =>
    simp only [List.map_cons, List.sum_cons]
    have := Sentence.mark_mine_phi s c
    omega

theorem ai_mark_safe_phi (st : MinesweeperAI) (c : Cell) :
    phi (st.mark_safe c).1 + (st.mark_safe c).2 = phi st := by
  unfold phi
  rw [mark_safe_knowledge, mark_safe_counter]
  exact list_phi_safe c st.knowledge

theorem ai_mark_mine_phi (st : MinesweeperAI) (c : Cell) :
    phi (st.mark_mine c).1 + (st.mark_mine c).2 = phi st := by
  unfold phi
  rw [mark_mine_knowledge, mark_mine_counter]
  exact list_phi_mine c st.knowledge

theorem markSafeAll_phi (l : List Cell) (st : MinesweeperAI) :
    phi (markSafeAll st l).1 + (markSafeAll st l).2 = phi st := by
  induction l generalizing st with
  | nil => simp [markSafeAll]
  | cons c cs ih =>
    unfold markSafeAll
    have h1 := ai_mark_safe_phi st c
    have h2 := ih (st.mark_safe c).1
    dsimp only
    omega

theorem markMineAll_phi (l : List Cell) (st : MinesweeperAI) :
    phi (markMineAll st l).1 + (markMineAll st l).2 = phi st := by
  induction l generalizing st with
  | nil => simp [markMineAll]
  | cons c cs ih =>
    unfold markMineAll
    have h1 := ai_mark_mine_phi st c
    have h2 := ih (st.mark_mine c).1
    dsimp only
    omega

theorem updateStep_phi (st : MinesweeperAI) (i : ℕ) :
    phi (updateStep st i).1 + (updateStep st i).2 = phi st := by
  unfold updateStep
  split
  · simp
  · rename_i x hx
    dsimp only
    split
    · rename_i hx1
      exact markSafeAll_phi _ st
    · rename_i x1 hx1
      have h1 := markSafeAll_phi (cellList x.known_safes) st
      have h2 := markMineAll_phi (cellList x1.known_mines)
        (markSafeAll st (cellList x.known_safes)).1
      dsimp only
      omega

theorem updateSteps_phi (l : List ℕ) (st : MinesweeperAI) :
    phi (updateSteps st l).1 + (updateSteps st l).2 = phi st := by
  induction l generalizing st with
  | nil => simp [updateSteps]
  | cons i is ih =>
    unfold updateSteps
    have h1 := updateStep_phi st i
    have h2 := ih (updateStep st i).1
    dsimp only
    omega

theorem updatePass_phi (st : MinesweeperAI) :
    phi (updatePass st).1 + (updatePass st).2 = phi st := by
  unfold updatePass
  have h1 := updateSteps_phi (List.range st.knowledge.length) st
  have h2 := markSafeAll_phi
    (cellList (updateSteps st (List.range st.knowledge.length)).1.safes)
    (updateSteps st (List.range st.knowledge.length)).1
  have h3 := markMineAll_phi
    (cellList (markSafeAll (updateSteps st (List.range st.knowledge.length)).1
      (cellList (updateSteps st (List.range st.knowledge.length)).1.safes)).1.mines)
    (markSafeAll (updateSteps st (List.range st.knowledge.length)).1
      (cellList (updateSteps st (List.range st.knowledge.length)).1.safes)).1
  dsimp only
  omega

/-! ## Helpers for the canonical iteration order -/

theorem cellList_empty : cellList ∅ = [] := rfl

theorem mem_cellList {s : Finset Cell} {c : Cell} : c ∈ cellList s ↔ c ∈ s := by
  rcases s with ⟨val, nodup⟩
  induction val using Quot.inductionOn with
  | _ l =>
    show c ∈ List.insertionSort cellLe l ↔ _
    rw [List.Perm.mem_iff (List.perm_insertionSort cellLe l)]
    rfl

theorem cellList_toFinset (s : Finset Cell) : (cellList s).toFinset = s := by
  ext a
  rw [List.mem_toFinset, mem_cellList]

theorem markSafeAll_nil (st : MinesweeperAI) : markSafeAll st [] = (st, 0) := rfl

theorem markMineAll_nil (st : MinesweeperAI) : markMineAll st [] = (st, 0) := rfl

theorem nat_sum_zero {l : List ℕ} (h : l.sum = 0) : ∀ x ∈ l, x = 0 := by
  induction l with
  | nil => simp
  | cons a t ih =>
    simp only [List.sum_cons] at h
    intro x hx
    rcases List.mem_cons.mp hx with rfl | hx
    · omega
    · exact ih (by omega) x hx

/-! ## Zero-counter analysis: a marking call that reports no progress did not
touch any sentence -/

theorem mark_safe_zero (st : MinesweeperAI) (c : Cell) (h : (st.mark_safe c).2 = 0) :
    (∀ s ∈ st.knowledge, c ∉ s.cells) ∧
      (st.mark_safe c).1 = { st with safes := insert c st.safes } := by
  rw [mark_safe_counter] at h
  have hall := nat_sum_zero h
  have hnot : ∀ s ∈ st.knowledge, c ∉ s.cells := by
    intro s hs hc
    have h0 := hall _ (List.mem_map_of_mem _ hs)
    unfold Sentence.mark_safe at h0
    rw [if_pos hc] at h0
    cases h0
  refine ⟨hnot, ?_⟩
  have hk : (st.mark_safe c).1.knowledge = st.knowledge := by
    rw [mark_safe_knowledge]
    calc st.knowledge.map (fun s => (s.mark_safe c).1)
        = st.knowledge.map id := by
          apply List.map_congr_left
          intro s hs
          unfold Sentence.mark_safe
          rw [if_neg (hnot s hs)]
          rfl
      _ = st.knowledge := List.map_id _
  exact MinesweeperAI.ext rfl rfl rfl rfl rfl hk

theorem mark_mine_zero (st : MinesweeperAI) (c : Cell) (h : (st.mark_mine c).2 = 0) :
    (∀ s ∈ st.knowledge, c ∉ s.cells) ∧
      (st.mark_mine c).1 = { st with mines := insert c st.mines } := by
  rw [mark_mine_counter] at h
  have hall := nat_sum_zero h
  have hnot : ∀ s ∈ st.knowledge, c ∉ s.cells := by
    intro s hs hc
    have h0 := hall _ (List.mem_map_of_mem _ hs)
    unfold Sentence.mark_mine at h0
    rw [if_pos hc] at h0
    cases h0
  refine ⟨hnot, ?_⟩
  have hk : (st.mark_mine c).1.knowledge = st.knowledge := by
    rw [mark_mine_knowledge]
    calc st.knowledge.map (fun s => (s.mark_mine c).1)
        = st.knowledge.map id := by
          apply List.map_congr_left
          intro s hs
          unfold Sentence.mark_mine
          rw [if_neg (hnot s hs)]
          rfl
      _ = st.knowledge := List.map_id _
  exact MinesweeperAI.ext rfl rfl rfl rfl rfl hk

theorem markSafeAll_zero (l : List Cell) (st : MinesweeperAI)
    (h : (markSafeAll st l).2 = 0) :
    (markSafeAll st l).1 = { st with safes := st.safes ∪ l.toFinset } ∧
      ∀ c ∈ l, ∀ s ∈ st.knowledge, c ∉ s.cells := by
  induction l generalizing st with
  | nil =>
    refine ⟨?_, by simp⟩
    rw [markSafeAll_nil]
    rw [List.toFinset_nil, Finset.union_empty]
  | cons c cs ih =>
    unfold markSafeAll at h ⊢
    dsimp only at h ⊢
    have h1 : (st.mark_safe c).2 = 0 := by omega
    have h2 : (markSafeAll (st.mark_safe c).1 cs).2 = 0 := by omega
    obtain ⟨hnot1, hst1⟩ := mark_safe_zero st c h1
    rw [hst1] at h2 ⊢
    obtain ⟨hid, hnot⟩ := ih _ h2
    constructor
    · rw [hid]
      have : insert c st.safes ∪ cs.toFinset = st.safes ∪ (c :: cs).toFinset := by
        rw [List.toFinset_cons, Finset.insert_union, Finset.union_insert]
      rw [this]
    · intro c' hc' s hs
      rcases List.mem_cons.mp hc' with rfl | hc'
      · exact hnot1 s hs
      · exact hnot c' hc' s hs

theorem markMineAll_zero (l : List Cell) (st : MinesweeperAI)
    (h : (markMineAll st l).2 = 0) :
    (markMineAll st l).1 = { st with mines := st.mines ∪ l.toFinset } ∧
      ∀ c ∈ l, ∀ s ∈ st.knowledge, c ∉ s.cells := by
  induction l generalizing st with
  | nil =>
    refine ⟨?_, by simp⟩
    rw [markMineAll_nil]
    rw [List.toFinset_nil, Finset.union_empty]
  | cons c cs ih =>
    unfold markMineAll at h ⊢
    dsimp only at h ⊢
    have h1 : (st.mark_mine c).2 = 0 := by omega
    have h2 : (markMineAll (st.mark_mine c).1 cs).2 = 0 := by omega
    obtain ⟨hnot1, hst1⟩ := mark_mine_zero st c h1
    rw [hst1] at h2 ⊢
    obtain ⟨hid, hnot⟩ := ih _ h2
    constructor
    · rw [hid]
      have : insert c st.mines ∪ cs.toFinset = st.mines ∪ (c :: cs).toFinset := by
        rw [List.toFinset_cons, Finset.insert_union, Finset.union_insert]
      rw [this]
    · intro c' hc' s hs
      rcases List.mem_cons.mp hc' with rfl | hc'
      · exact hnot1 s hs
      · exact hnot c' hc' s hs

/-! ## No-op marking: re-marking an already-recorded cell that no sentence
contains leaves the state untouched -/

theorem mark_safe_noop (st : MinesweeperAI) (c : Cell) (hc : c ∈ st.safes)
    (hnot : ∀ s ∈ st.knowledge, c ∉ s.cells) : st.mark_safe c = (st, 0) := by
  have h2 : (st.mark_safe c).2 = 0 := by
    rw [mark_safe_counter]
    apply List.sum_eq_zero
    intro x hx
    obtain ⟨s, hs, rfl⟩ := List.mem_map.mp hx
    unfold Sentence.mark_safe
    rw [if_neg (hnot s hs)]
  have h1 : (st.mark_safe c).1 = st := by
    rw [(mark_safe_zero st c h2).2, Finset.insert_eq_self.mpr hc]
  calc st.mark_safe c = ((st.mark_safe c).1, (st.mark_safe c).2) := rfl
    _ = (st, 0) := by rw [h1, h2]

theorem mark_mine_noop (st : MinesweeperAI) (c : Cell) (hc : c ∈ st.mines)
    (hnot : ∀ s ∈ st.knowledge, c ∉ s.cells) : st.mark_mine c = (st, 0) := by
  have h2 : (st.mark_mine c).2 = 0 := by
    rw [mark_mine_counter]
    apply List.sum_eq_zero
    intro x hx
    obtain ⟨s, hs, rfl⟩ := List.mem_map.mp hx
    unfold Sentence.mark_mine
    rw [if_neg (hnot s hs)]
  have h1 : (st.mark_mine c).1 = st := by
    rw [(mark_mine_zero st c h2).2, Finset.insert_eq_self.mpr hc]
  calc st.mark_mine c = ((st.mark_mine c).1, (st.mark_mine c).2) := rfl
    _ = (st, 0) := by rw [h1, h2]

theorem markSafeAll_id_of (l : List Cell) (st : MinesweeperAI)
    (hsub : ∀ c ∈ l, c ∈ st.safes)
    (hnot : ∀ c ∈ l, ∀ s ∈ st.knowledge, c ∉ s.cells) :
    markSafeAll st l = (st, 0) := by
  induction l with
  | nil => rfl
  | cons c cs ih =>
    unfold markSafeAll
    rw [mark_safe_noop st c (hsub c (by simp)) (fun s hs => hnot c (by simp) s hs)]
    dsimp only
    rw [ih (fun c' hc' => hsub c' (List.mem_cons_of_mem _ hc'))
      (fun c' hc' => hnot c' (List.mem_cons_of_mem _ hc'))]
    rfl

theorem markMineAll_id_of (l : List Cell) (st : MinesweeperAI)
    (hsub : ∀ c ∈ l, c ∈ st.mines)
    (hnot : ∀ c ∈ l, ∀ s ∈ st.knowledge, c ∉ s.cells) :
    markMineAll st l = (st, 0) := by
  induction l with
  | nil => rfl
  | cons c cs ih =>
    unfold markMineAll
    rw [mark_mine_noop st c (hsub c (by simp)) (fun s hs => hnot c (by simp) s hs)]
    dsimp only
    rw [ih (fun c' hc' => hsub c' (List.mem_cons_of_mem _ hc'))
      (fun c' hc' => hnot c' (List.mem_cons_of_mem _ hc'))]
    rfl

/-! ## Case equations for `updateStep` -/

theorem updateStep_none (st : MinesweeperAI) (i : ℕ)
    (h : st.knowledge.get? i = none) : updateStep st i = (st, 0) := by
  unfold updateStep
  rw [h]

theorem updateStep_some (st : MinesweeperAI) (i : ℕ) (x : Sentence)
    (h : st.knowledge.get? i = some x) :
    updateStep st i =
      (match (markSafeAll st (cellList x.known_safes)).1.knowledge.get? i with
       | none => markSafeAll st (cellList x.known_safes)
       | some x1 =>
         ((markMineAll (markSafeAll st (cellList x.known_safes)).1
            (cellList x1.known_mines)).1,
          (markSafeAll st (cellList x.known_safes)).2 +
            (markMineAll (markSafeAll st (cellList x.known_safes)).1
              (cellList x1.known_mines)).2)) := by
  unfold updateStep
  rw [h]

theorem updateStep_zero (st : MinesweeperAI) (i : ℕ) (h : (updateStep st i).2 = 0) :
    (updateStep st i).1 = st ∧
      ∀ x, st.knowledge.get? i = some x → x.known_safes = ∅ ∧ x.known_mines = ∅ := by
  cases hget : st.knowledge.get? i with
  | none =>
    rw [updateStep_none st i hget]
    exact ⟨rfl, fun x hx => by cases hx⟩
  | some x =>
    rw [updateStep_some st i x hget] at h ⊢
    have hx : x ∈ st.knowledge := List.get?_mem hget
    have hsafe1 : (markSafeAll st (cellList x.known_safes)).2 = 0 := by
      cases hget2 : (markSafeAll st (cellList x.known_safes)).1.knowledge.get? i with
      | none => rw [hget2] at h; exact h
      | some x1 => rw [hget2] at h; dsimp only at h; omega
    have hks : x.known_safes = ∅ := by
      rcases Finset.eq_empty_or_nonempty x.known_safes with he | ⟨c, hc⟩
      · exact he
      · exfalso
        have hnot := (markSafeAll_zero _ st hsafe1).2 c (mem_cellList.mpr hc) x hx
        exact hnot (x.known_safes_subset hc)
    rw [hks, cellList_empty, markSafeAll_nil] at h ⊢
    rw [hget] at h ⊢
    dsimp only at h ⊢
    have hkm : x.known_mines = ∅ := by
      rcases Finset.eq_empty_or_nonempty x.known_mines with he | ⟨c, hc⟩
      · exact he
      · exfalso
        have hmine1 : (markMineAll st (cellList x.known_mines)).2 = 0 := by omega
        have hnot := (markMineAll_zero _ st hmine1).2 c (mem_cellList.mpr hc) x hx
        exact hnot (x.known_mines_subset hc)
    rw [hkm, cellList_empty, markMineAll_nil]
    exact ⟨rfl, fun y hy => by
      cases hy
      exact ⟨hks, hkm⟩⟩

theorem updateStep_id_of (st : MinesweeperAI) (i : ℕ)
    (hsat : ∀ x ∈ st.knowledge, x.known_safes = ∅ ∧ x.known_mines = ∅) :
    updateStep st i = (st, 0) := by
  cases hget : st.knowledge.get? i with
  | none => exact updateStep_none st i hget
  | some x =>
    have hx : x ∈ st.knowledge := List.get?_mem hget
    rw [updateStep_some st i x hget]
    rw [(hsat x hx).1, cellList_empty, markSafeAll_nil]
    rw [hget]
    dsimp only
    rw [(hsat x hx).2, cellList_empty, markMineAll_nil]
    rfl

theorem updateSteps_zero (l : List ℕ) (st : MinesweeperAI)
    (h : (updateSteps st l).2 = 0) :
    (updateSteps st l).1 = st ∧ ∀ i ∈ l, (updateStep st i).2 = 0 := by
  induction l generalizing st with
  | nil => exact ⟨rfl, by simp⟩
  | cons i is ih =>
    unfold updateSteps at h ⊢
    dsimp only at h ⊢
    have h1 : (updateStep st i).2 = 0 := by omega
    have h2 : (updateSteps (updateStep st i).1 is).2 = 0 := by omega
    have hid := (updateStep_zero st i h1).1
    rw [hid] at h2 ⊢
    obtain ⟨hid2, hall⟩ := ih st h2
    refine ⟨hid2, ?_⟩
    intro j hj
    rcases List.mem_cons.mp hj with rfl | hj
    · exact h1
    · exact hall j hj

theorem updateSteps_id_of (l : List ℕ) (st : MinesweeperAI)
    (hsat : ∀ x ∈ st.knowledge, x.known_safes = ∅ ∧ x.known_mines = ∅) :
    updateSteps st l = (st, 0) := by
  induction l with
  | nil => rfl
  | cons i is ih =>
    unfold updateSteps
    rw [updateStep_id_of st i hsat]
    dsimp only
    rw [ih]
    rfl

theorem updatePass_zero (st : MinesweeperAI) (h : (updatePass st).2 = 0) :
    (updatePass st).1 = st ∧
      (∀ x ∈ st.knowledge, x.known_safes = ∅ ∧ x.known_mines = ∅) ∧
      (∀ c ∈ st.safes, ∀ s ∈ st.knowledge, c ∉ s.cells) ∧
      (∀ c ∈ st.mines, ∀ s ∈ st.knowledge, c ∉ s.cells) := by
  unfold updatePass at h ⊢
  dsimp only at h ⊢
  have h1 : (updateSteps st (List.range st.knowledge.length)).2 = 0 := by omega
  obtain ⟨hid1, hsteps⟩ := updateSteps_zero _ st h1
  rw [hid1] at h ⊢
  have h2 : (markSafeAll st (cellList st.safes)).2 = 0 := by omega
  obtain ⟨hid2, hnot2⟩ := markSafeAll_zero _ st h2
  have hid2' : (markSafeAll st (cellList st.safes)).1 = st := by
    rw [hid2, cellList_toFinset, Finset.union_self]
  rw [hid2'] at h ⊢
  have h3 : (markMineAll st (cellList st.mines)).2 = 0 := by omega
  obtain ⟨hid3, hnot3⟩ := markMineAll_zero _ st h3
  have hid3' : (markMineAll st (cellList st.mines)).1 = st := by
    rw [hid3, cellList_toFinset, Finset.union_self]
  refine ⟨hid3', ?_, ?_, ?_⟩
  · intro x hx
    obtain ⟨i, hi⟩ := List.mem_iff_get?.mp hx
    have hlen := (List.get?_eq_some.mp hi).1
    exact (updateStep_zero st i (hsteps i (List.mem_range.mpr hlen))).2 x hi
  · intro c hc s hs
    exact hnot2 c (mem_cellList.mpr hc) s hs
  · intro c hc s hs
    exact hnot3 c (mem_cellList.mpr hc) s hs

theorem updatePass_fix_of (st : MinesweeperAI)
    (hsat : ∀ x ∈ st.knowledge, x.known_safes = ∅ ∧ x.known_mines = ∅)
    (hsafe : ∀ c ∈ st.safes, ∀ s ∈ st.knowledge, c ∉ s.cells)
    (hmine : ∀ c ∈ st.mines, ∀ s ∈ st.knowledge, c ∉ s.cells) :
    updatePass st = (st, 0) := by
  unfold updatePass
  rw [updateSteps_id_of _ st hsat]
  dsimp only
  rw [markSafeAll_id_of _ st (fun c hc => mem_cellList.mp hc)
    (fun c hc => hsafe c (mem_cellList.mp hc))]
  dsimp only
  rw [markMineAll_id_of _ st (fun c hc => mem_cellList.mp hc)
    (fun c hc => hmine c (mem_cellList.mp hc))]
  rfl

/-! ## Termination and fixpoint of the `update` loop -/

theorem updateLoop_some_of_lt (fuel : ℕ) :
    ∀ st : MinesweeperAI, phi st < fuel → (updateLoop fuel st).isSome := by
  induction fuel with
  | zero => intro st h; omega
  | succ f ih =>
    intro st _
    unfold updateLoop
    dsimp only
    by_cases hz : (updatePass st).2 = 0
    · rw [if_pos hz]
      rfl
    · rw [if_neg hz]
      apply ih
      have := updatePass_phi st
      omega

theorem updateLoop_fix (fuel : ℕ) :
    ∀ st r : MinesweeperAI, updateLoop fuel st = some r → updatePass r = (r, 0) := by
  induction fuel with
  | zero => intro st r h; cases h
  | succ f ih =>
    intro st r h
    unfold updateLoop at h
    dsimp only at h
    by_cases hz : (updatePass st).2 = 0
    · rw [if_pos hz] at h
      have hr : r = (updatePass st).1 := (Option.some_inj.mp h).symm
      have hid := (updatePass_zero st hz).1
      rw [hr, hid]
      calc updatePass st = ((updatePass st).1, (updatePass st).2) := rfl
        _ = (st, 0) := by rw [hid, hz]
    · rw [if_neg hz] at h
      exact ih _ r h

theorem update_eq_some (st : MinesweeperAI) :
    updateLoop (phi st + 1) st = some st.update := by
  have h := updateLoop_some_of_lt (phi st + 1) st (by omega)
  obtain ⟨r, hr⟩ := Option.isSome_iff_exists.mp h
  rw [MinesweeperAI.update, hr]
  rfl

theorem update_fix (st : MinesweeperAI) :
    updatePass st.update = (st.update, 0) :=
  updateLoop_fix _ _ _ (update_eq_some st)

/-! ## Frame preservation: grid size and moves never change; safes and mines
only grow -/

theorem frame_refl (st : MinesweeperAI) : framePreserved st st :=
  ⟨rfl, rfl, rfl, Finset.Subset.refl _, Finset.Subset.refl _⟩

theorem frame_trans {st1 st2 st3 : MinesweeperAI}
    (h1 : framePreserved st1 st2) (h2 : framePreserved st2 st3) :
    framePreserved st1 st3 := by
  obtain ⟨a1, b1, c1, d1, e1⟩ := h1
  obtain ⟨a2, b2, c2, d2, e2⟩ := h2
  exact ⟨a2.trans a1, b2.trans b1, c2.trans c1, d1.trans d2, e1.trans e2⟩

theorem frame_mark_safe (st : MinesweeperAI) (c : Cell) :
    framePreserved st (st.mark_safe c).1 :=
  ⟨rfl, rfl, rfl, Finset.subset_insert c st.safes, Finset.Subset.refl _⟩

theorem frame_mark_mine (st : MinesweeperAI) (c : Cell) :
    framePreserved st (st.mark_mine c).1 :=
  ⟨rfl, rfl, rfl, Finset.Subset.refl _, Finset.subset_insert c st.mines⟩

theorem frame_markSafeAll (l : List Cell) (st : MinesweeperAI) :
    framePreserved st (markSafeAll st l).1 := by
  induction l generalizing st with
  | nil => exact frame_refl st
  | cons c cs ih =>
    unfold markSafeAll
    exact frame_trans (frame_mark_safe st c) (ih (st.mark_safe c).1)

theorem frame_markMineAll (l : List Cell) (st : MinesweeperAI) :
    framePreserved st (markMineAll st l).1 := by
  induction l generalizing st with
  | nil => exact frame_refl st
  | cons c cs ih =>
    unfold markMineAll
    exact frame_trans (frame_mark_mine st c) (ih (st.mark_mine c).1)

theorem frame_updateStep (st : MinesweeperAI) (i : ℕ) :
    framePreserved st (updateStep st i).1 := by
  cases hget : st.knowledge.get? i with
  | none => rw [updateStep_none st i hget]; exact frame_refl st
  | some x =>
    rw [updateStep_some st i x hget]
    cases hget2 : (markSafeAll st (cellList x.known_safes)).1.knowledge.get? i with
    | none => exact frame_markSafeAll _ st
    | some x1 =>
      exact frame_trans (frame_markSafeAll _ st) (frame_markMineAll _ _)

theorem frame_updateSteps (l : List ℕ) (st : MinesweeperAI) :
    framePreserved st (updateSteps st l).1 := by
  induction l generalizing st with
  | nil => exact frame_refl st
  | cons i is ih =>
    unfold updateSteps
    exact frame_trans (frame_updateStep st i) (ih (updateStep st i).1)

theorem frame_updatePass (st : MinesweeperAI) :
    framePreserved st (updatePass st).1 := by
  unfold updatePass
  exact frame_trans (frame_updateSteps _ st)
    (frame_trans (frame_markSafeAll _ _) (frame_markMineAll _ _))

theorem frame_updateLoop (fuel : ℕ) :
    ∀ st r : MinesweeperAI, updateLoop fuel st = some r → framePreserved st r := by
  induction fuel with
  | zero => intro st r h; cases h
  | succ f ih =>
    intro st r h
    unfold updateLoop at h
    dsimp only at h
    by_cases hz : (updatePass st).2 = 0
    · rw [if_pos hz] at h
      rw [← Option.some_inj.mp h]
      exact frame_updatePass st
    · rw [if_neg hz] at h
      exact frame_trans (frame_updatePass st) (ih _ r h)

theorem frame_update (st : MinesweeperAI) : framePreserved st st.update :=
  frame_updateLoop _ st st.update (update_eq_some st)

theorem frame_inference (st : MinesweeperAI) :
    framePreserved st st.inference.1 :=
  ⟨rfl, rfl, rfl, Finset.Subset.refl _, Finset.Subset.refl _⟩

theorem frame_akLoop (fuel : ℕ) :
    ∀ st r : MinesweeperAI, akLoop fuel st = some r → framePreserved st r := by
  induction fuel with
  | zero =>
    intro st r h
    unfold akLoop at h
    dsimp only at h
    by_cases hz : st.inference.2 = []
    · rw [if_pos hz] at h
      rw [← Option.some_inj.mp h]
      exact frame_inference st
    · rw [if_neg hz] at h
      cases h
  | succ f ih =>
    intro st r h
    unfold akLoop at h
    dsimp only at h
    by_cases hz : st.inference.2 = []
    · rw [if_pos hz] at h
      rw [← Option.some_inj.mp h]
      exact frame_inference st
    · rw [if_neg hz] at h
      refine frame_trans (frame_inference st) (frame_trans ?_
        (frame_trans (frame_update _) (ih _ r h)))
      exact ⟨rfl, rfl, rfl, Finset.Subset.refl _, Finset.Subset.refl _⟩

/-! ## Characterisation of `inference` -/

theorem mem_inferenceTrash {kn : List Sentence} {x : Sentence} :
    x ∈ inferenceTrash kn ↔ x ∈ kn ∧ x.cells = ∅ := by
  unfold inferenceTrash
  rw [List.mem_flatMap]
  constructor
  · rintro ⟨s1, hs1, hx⟩
    by_cases h1 : s1.cells = ∅
    · rw [if_pos h1] at hx
      rcases List.mem_singleton.mp hx with rfl
      exact ⟨hs1, h1⟩
    · rw [if_neg h1, List.mem_filter] at hx
      exact ⟨hx.1, by simpa using hx.2⟩
  · rintro ⟨hx, hempty⟩
    exact ⟨x, hx, by rw [if_pos hempty]; exact List.mem_singleton.mpr rfl⟩

theorem mem_inference_knowledge {st : MinesweeperAI} {s : Sentence} :
    s ∈ st.inference.1.knowledge ↔ s ∈ st.knowledge ∧ s.cells ≠ ∅ := by
  show s ∈ st.knowledge.filter _ ↔ _
  rw [List.mem_filter]
  constructor
  · rintro ⟨hmem, hdec⟩
    refine ⟨hmem, fun hempty => ?_⟩
    have : s ∉ inferenceTrash st.knowledge := of_decide_eq_true hdec
    exact this (mem_inferenceTrash.mpr ⟨hmem, hempty⟩)
  · rintro ⟨hmem, hne⟩
    refine ⟨hmem, decide_eq_true ?_⟩
    intro htrash
    exact hne (mem_inferenceTrash.mp htrash).2

theorem mem_inferenceNew {kn : List Sentence} {D : Sentence} :
    D ∈ inferenceNew kn ↔ derivableFrom kn D := by
  unfold inferenceNew derivableFrom
  rw [List.mem_flatMap]
  constructor
  · rintro ⟨s1, hs1, hmem⟩
    by_cases h1 : s1.cells = ∅
    · rw [if_pos h1] at hmem
      cases hmem
    · rw [if_neg h1, List.mem_filterMap] at hmem
      obtain ⟨s2, hs2, hD⟩ := hmem
      by_cases h2 : s2.cells = ∅
      · rw [if_pos h2] at hD
        cases hD
      · rw [if_neg h2] at hD
        by_cases h3 : s1 ≠ s2 ∧ s2.cells ⊆ s1.cells
        · rw [if_pos h3] at hD
          by_cases h4 : diffSentence s1 s2 ∈ kn
          · rw [if_pos h4] at hD
            cases hD
          · rw [if_neg h4] at hD
            have hDd := Option.some_inj.mp hD
            exact ⟨s1, hs1, h1, s2, hs2, h2, h3.1, h3.2, hDd.symm, by rw [← hDd]; exact h4⟩
        · rw [if_neg h3] at hD
          cases hD
  · rintro ⟨A, hA, hA0, B, hB, hB0, hne, hsub, rfl, hnotin⟩
    refine ⟨A, hA, ?_⟩
    rw [if_neg hA0, List.mem_filterMap]
    refine ⟨B, hB, ?_⟩
    rw [if_neg hB0, if_pos ⟨hne, hsub⟩, if_neg hnotin]

theorem inferenceNew_not_mem {kn : List Sentence} {D : Sentence}
    (h : D ∈ inferenceNew kn) : D ∉ kn := by
  obtain ⟨A, _, _, B, _, _, _, _, rfl, hnotin⟩ := mem_inferenceNew.mp h
  exact hnotin

theorem inference_moves (st : MinesweeperAI) :
    st.inference.1.moves_made = st.moves_made := rfl

theorem inference_safes (st : MinesweeperAI) :
    st.inference.1.safes = st.safes := rfl

theorem inference_mines (st : MinesweeperAI) :
    st.inference.1.mines = st.mines := rfl

/-! ## Consequences of a pass fixpoint -/

theorem fix_absent (st : MinesweeperAI) (hfix : updatePass st = (st, 0)) :
    ∀ s ∈ st.knowledge, ∀ c ∈ s.cells, c ∉ st.safes ∧ c ∉ st.mines := by
  have hzero : (updatePass st).2 = 0 := by rw [hfix]
  obtain ⟨-, -, hsafe, hmine⟩ := updatePass_zero st hzero
  intro s hs c hc
  exact ⟨fun hcs => hsafe c hcs s hs hc, fun hcm => hmine c hcm s hs hc⟩

theorem fix_saturation (st : MinesweeperAI) (hfix : updatePass st = (st, 0)) :
    ∀ s ∈ st.knowledge, (s.count = 0 ∨ (s.cells.card : ℤ) = s.count) → s.cells = ∅ := by
  have hzero : (updatePass st).2 = 0 := by rw [hfix]
  obtain ⟨-, hsat, -, -⟩ := updatePass_zero st hzero
  intro s hs hcond
  rcases hcond with h0 | hcard
  · have hks := (hsat s hs).1
    unfold Sentence.known_safes at hks
    rwa [if_pos h0] at hks
  · have hkm := (hsat s hs).2
    unfold Sentence.known_mines at hkm
    rwa [if_pos hcard] at hkm

/-! ## The `add_knowledge` fixpoint loop: its result is a pass fixpoint born
from an inference call that derived nothing new -/

theorem inference_exit (st r : MinesweeperAI) (hfix : updatePass st = (st, 0))
    (hz : st.inference.2 = []) (hr : r = st.inference.1) :
    updatePass r = (r, 0) ∧
      ∃ stp : MinesweeperAI, stp.inference = (r, ([] : List Sentence)) := by
  have hzero : (updatePass st).2 = 0 := by rw [hfix]
  obtain ⟨-, hsat, hsafe, hmine⟩ := updatePass_zero st hzero
  constructor
  · subst hr
    apply updatePass_fix_of
    · intro x hx
      exact hsat x (mem_inference_knowledge.mp hx).1
    · intro c hc s hs
      exact hsafe c hc s (mem_inference_knowledge.mp hs).1
    · intro c hc s hs
      exact hmine c hc s (mem_inference_knowledge.mp hs).1
  · refine ⟨st, ?_⟩
    calc st.inference = (st.inference.1, st.inference.2) := rfl
      _ = (r, []) := by rw [hz, hr]

theorem akLoop_result (fuel : ℕ) :
    ∀ st r : MinesweeperAI, updatePass st = (st, 0) → akLoop fuel st = some r →
      updatePass r = (r, 0) ∧
        ∃ stp : MinesweeperAI, stp.inference = (r, ([] : List Sentence)) := by
  induction fuel with
  | zero =>
    intro st r hfix h
    unfold akLoop at h
    dsimp only at h
    by_cases hz : st.inference.2 = []
    · rw [if_pos hz] at h
      exact inference_exit st r hfix hz (Option.some_inj.mp h).symm
    · rw [if_neg hz] at h
      cases h
  | succ f ih =>
    intro st r hfix h
    unfold akLoop at h
    dsimp only at h
    by_cases hz : st.inference.2 = []
    · rw [if_pos hz] at h
      exact inference_exit st r hfix hz (Option.some_inj.mp h).symm
    · rw [if_neg hz] at h
      exact ih _ r (update_fix _) h

theorem add_knowledge_result (st : MinesweeperAI) (cell : Cell) (count : ℤ)
    (fuel : ℕ) (r : MinesweeperAI) (h : st.add_knowledge cell count fuel = some r) :
    updatePass r = (r, 0) ∧
      ∃ stp : MinesweeperAI, stp.inference = (r, ([] : List Sentence)) := by
  unfold MinesweeperAI.add_knowledge at h
  dsimp only at h
  exact akLoop_result fuel _ r (update_fix _) h

/-! ## Truthfulness invariant: every sentence counts exactly its mines -/

theorem soundFor_bounds {s : Sentence} {M : Finset Cell} (h : s.soundFor M) :
    0 ≤ s.count ∧ s.count ≤ (s.cells.card : ℤ) := by
  unfold Sentence.soundFor at h
  constructor
  · rw [h]
    exact Int.natCast_nonneg _
  · rw [h]
    exact_mod_cast Finset.card_le_card Finset.inter_subset_left

theorem sound_mark_safe {st : MinesweeperAI} {M : Finset Cell}
    (hM : soundState st M) {c : Cell} (hc : c ∉ M) :
    soundState (st.mark_safe c).1 M := by
  obtain ⟨hkn, hsafes, hmines⟩ := hM
  refine ⟨?_, ?_, hmines⟩
  · intro s hs
    rw [mark_safe_knowledge] at hs
    obtain ⟨s0, hs0, rfl⟩ := List.mem_map.mp hs
    rw [Sentence.mark_safe_fst]
    unfold Sentence.soundFor
    dsimp only
    have hinter : s0.cells.erase c ∩ M = s0.cells ∩ M := by
      ext y
      simp only [Finset.mem_inter, Finset.mem_erase]
      constructor
      · rintro ⟨⟨_, hy⟩, hyM⟩
        exact ⟨hy, hyM⟩
      · rintro ⟨hy, hyM⟩
        exact ⟨⟨fun hEq => hc (hEq ▸ hyM), hy⟩, hyM⟩
    rw [hinter]
    exact hkn s0 hs0
  · rw [mark_safe_safes, Finset.insert_inter_of_not_mem hc]
    exact hsafes

theorem sound_mark_mine {st : MinesweeperAI} {M : Finset Cell}
    (hM : soundState st M) {c : Cell} (hc : c ∈ M) :
    soundState (st.mark_mine c).1 M := by
  obtain ⟨hkn, hsafes, hmines⟩ := hM
  refine ⟨?_, hsafes, ?_⟩
  · intro s hs
    rw [mark_mine_knowledge] at hs
    obtain ⟨s0, hs0, rfl⟩ := List.mem_map.mp hs
    rw [Sentence.mark_mine_fst]
    unfold Sentence.soundFor
    dsimp only
    have hinter : s0.cells.erase c ∩ M = (s0.cells ∩ M).erase c := by
      ext y
      simp only [Finset.mem_inter, Finset.mem_erase]
      tauto
    by_cases hcs : c ∈ s0.cells
    · rw [if_pos hcs, hinter]
      have hcin : c ∈ s0.cells ∩ M := Finset.mem_inter.mpr ⟨hcs, hc⟩
      rw [Finset.card_erase_of_mem hcin]
      have hpos : 0 < (s0.cells ∩ M).card := Finset.card_pos.mpr ⟨c, hcin⟩
      have hs0s := hkn s0 hs0
      unfold Sentence.soundFor at hs0s
      omega
    · rw [if_neg hcs, hinter,
        Finset.erase_eq_of_not_mem (fun hmem => hcs (Finset.mem_inter.mp hmem).1)]
      exact hkn s0 hs0
  · rw [mark_mine_mines]
    exact Finset.insert_subset hc hmines

theorem sound_markSafeAll (M : Finset Cell) :
    ∀ (l : List Cell) (st : MinesweeperAI), soundState st M → (∀ c ∈ l, c ∉ M) →
      soundState (markSafeAll st l).1 M := by
  intro l
  induction l with
  | nil => intro st hM _; exact hM
  | cons c cs ih =>
    intro st hM hl
    unfold markSafeAll
    exact ih _ (sound_mark_safe hM (hl c (List.mem_cons_self c cs)))
      (fun c' hc' => hl c' (List.mem_cons_of_mem _ hc'))

theorem sound_markMineAll (M : Finset Cell) :
    ∀ (l : List Cell) (st : MinesweeperAI), soundState st M → (∀ c ∈ l, c ∈ M) →
      soundState (markMineAll st l).1 M := by
  intro l
  induction l with
  | nil => intro st hM _; exact hM
  | cons c cs ih =>
    intro st hM hl
    unfold markMineAll
    exact ih _ (sound_mark_mine hM (hl c (List.mem_cons_self c cs)))
      (fun c' hc' => hl c' (List.mem_cons_of_mem _ hc'))

theorem known_safes_not_mine {s : Sentence} {M : Finset Cell} (h : s.soundFor M) :
    ∀ c ∈ s.known_safes, c ∉ M := by
  intro c hc
  unfold Sentence.known_safes at hc
  by_cases h0 : s.count = 0
  · rw [if_pos h0] at hc
    unfold Sentence.soundFor at h
    rw [h0] at h
    have hcard : (s.cells ∩ M).card = 0 := by omega
    have hempty : s.cells ∩ M = ∅ := Finset.card_eq_zero.mp hcard
    intro hcM
    have hmem : c ∈ s.cells ∩ M := Finset.mem_inter.mpr ⟨hc, hcM⟩
    rw [hempty] at hmem
    exact absurd hmem (Finset.not_mem_empty c)
  · rw [if_neg h0] at hc
    exact absurd hc (Finset.not_mem_empty c)

theorem known_mines_in_mine {s : Sentence} {M : Finset Cell} (h : s.soundFor M) :
    ∀ c ∈ s.known_mines, c ∈ M := by
  intro c hc
  unfold Sentence.known_mines at hc
  by_cases h0 : (s.cells.card : ℤ) = s.count
  · rw [if_pos h0] at hc
    unfold Sentence.soundFor at h
    have hcard : s.cells.card ≤ (s.cells ∩ M).card := by omega
    have heq : s.cells ∩ M = s.cells :=
      Finset.eq_of_subset_of_card_le Finset.inter_subset_left hcard
    exact (Finset.inter_eq_left.mp heq) hc
  · rw [if_neg h0] at hc
    exact absurd hc (Finset.not_mem_empty c)

theorem sound_updateStep {st : MinesweeperAI} {M : Finset Cell}
    (hM : soundState st M) (i : ℕ) : soundState (updateStep st i).1 M := by
  cases hget : st.knowledge.get? i with
  | none =>
    rw [updateStep_none st i hget]
    exact hM
  | some x =>
    rw [updateStep_some st i x hget]
    have hx : x ∈ st.knowledge := List.get?_mem hget
    have hsound1 : soundState (markSafeAll st (cellList x.known_safes)).1 M :=
      sound_markSafeAll M _ st hM
        (fun c hc => known_safes_not_mine (hM.1 x hx) c (mem_cellList.mp hc))
    cases hget2 : (markSafeAll st (cellList x.known_safes)).1.knowledge.get? i with
    | none => exact hsound1
    | some x1 =>
      have hx1 : x1 ∈ (markSafeAll st (cellList x.known_safes)).1.knowledge :=
        List.get?_mem hget2
      exact sound_markMineAll M _ _ hsound1
        (fun c hc => known_mines_in_mine (hsound1.1 x1 hx1) c (mem_cellList.mp hc))

theorem sound_updateSteps {M : Finset Cell} :
    ∀ (l : List ℕ) (st : MinesweeperAI), soundState st M →
      soundState (updateSteps st l).1 M := by
  intro l
  induction l with
  | nil => intro st hM; exact hM
  | cons i is ih =>
    intro st hM
    unfold updateSteps
    exact ih _ (sound_updateStep hM i)

theorem sound_updatePass {st : MinesweeperAI} {M : Finset Cell}
    (hM : soundState st M) : soundState (updatePass st).1 M := by
  unfold updatePass
  have h1 := sound_updateSteps (List.range st.knowledge.length) st hM
  have h2 := sound_markSafeAll M (cellList (updateSteps st
    (List.range st.knowledge.length)).1.safes) _ h1
    (fun c hc => by
      have hcs := mem_cellList.mp hc
      intro hcM
      have hdisj := h1.2.1
      have : c ∈ (updateSteps st (List.range st.knowledge.length)).1.safes ∩ M :=
        Finset.mem_inter.mpr ⟨hcs, hcM⟩
      rw [hdisj] at this
      exact absurd this (Finset.not_mem_empty c))
  exact sound_markMineAll M _ _ h2
    (fun c hc => h2.2.2 (mem_cellList.mp hc))

theorem sound_updateLoop (M : Finset Cell) (fuel : ℕ) :
    ∀ st r : MinesweeperAI, soundState st M → updateLoop fuel st = some r →
      soundState r M := by
  induction fuel with
  | zero => intro st r _ h; cases h
  | succ f ih =>
    intro st r hM h
    unfold updateLoop at h
    dsimp only at h
    by_cases hz : (updatePass st).2 = 0
    · rw [if_pos hz] at h
      rw [← Option.some_inj.mp h]
      exact sound_updatePass hM
    · rw [if_neg hz] at h
      exact ih _ r (sound_updatePass hM) h

theorem sound_update {st : MinesweeperAI} {M : Finset Cell}
    (hM : soundState st M) : soundState st.update M :=
  sound_updateLoop M _ st st.update hM (update_eq_some st)

theorem sound_inference {st : MinesweeperAI} {M : Finset Cell}
    (hM : soundState st M) : soundState st.inference.1 M :=
  ⟨fun s hs => hM.1 s (mem_inference_knowledge.mp hs).1, hM.2.1, hM.2.2⟩

theorem diffSentence_sound {A B : Sentence} {M : Finset Cell}
    (hA : A.soundFor M) (hB : B.soundFor M) (hsub : B.cells ⊆ A.cells) :
    (diffSentence A B).soundFor M := by
  unfold Sentence.soundFor at hA hB ⊢
  unfold diffSentence
  dsimp only
  have hset : (A.cells \ B.cells) ∩ M = (A.cells ∩ M) \ (B.cells ∩ M) := by
    ext y
    simp only [Finset.mem_inter, Finset.mem_sdiff]
    tauto
  rw [hset]
  have hsub2 : B.cells ∩ M ⊆ A.cells ∩ M :=
    Finset.inter_subset_inter hsub (Finset.Subset.refl M)
  rw [Finset.card_sdiff hsub2]
  have hle := Finset.card_le_card hsub2
  omega

theorem sound_inferenceNew {kn : List Sentence} {M : Finset Cell}
    (hkn : ∀ s ∈ kn, s.soundFor M) : ∀ D ∈ inferenceNew kn, D.soundFor M := by
  intro D hD
  obtain ⟨A, hA, -, B, hB, -, -, hsub, rfl, -⟩ := mem_inferenceNew.mp hD
  exact diffSentence_sound (hkn A hA) (hkn B hB) hsub

theorem sound_akLoop (M : Finset Cell) (fuel : ℕ) :
    ∀ st r : MinesweeperAI, soundState st M → akLoop fuel st = some r →
      soundState r M := by
  induction fuel with
  | zero =>
    intro st r hM h
    unfold akLoop at h
    dsimp only at h
    by_cases hz : st.inference.2 = []
    · rw [if_pos hz] at h
      rw [← Option.some_inj.mp h]
      exact sound_inference hM
    · rw [if_neg hz] at h
      cases h
  | succ f ih =>
    intro st r hM h
    unfold akLoop at h
    dsimp only at h
    by_cases hz : st.inference.2 = []
    · rw [if_pos hz] at h
      rw [← Option.some_inj.mp h]
      exact sound_inference hM
    · rw [if_neg hz] at h
      refine ih _ r ?_ h
      apply sound_update
      refine ⟨?_, hM.2.1, hM.2.2⟩
      intro s hs
      rcases List.mem_append.mp hs with hs | hs
      · exact (sound_inference hM).1 s hs
      · exact sound_inferenceNew hM.1 s hs

theorem sound_add_knowledge (st : MinesweeperAI) (M : Finset Cell) (cell : Cell)
    (count : ℤ) (fuel : ℕ) (r : MinesweeperAI)
    (hM : soundState st M) (hc : cell ∉ M)
    (hcount : count = ((neighborsOf st.height st.width cell.1 cell.2 ∩ M).card : ℤ))
    (h : st.add_knowledge cell count fuel = some r) : soundState r M := by
  unfold MinesweeperAI.add_knowledge at h
  dsimp only at h
  apply sound_akLoop M fuel _ r _ h
  apply sound_update
  have hM1 : soundState { st with moves_made := insert cell st.moves_made } M :=
    ⟨hM.1, hM.2.1, hM.2.2⟩
  have hM2 := sound_mark_safe hM1 hc
  refine ⟨?_, hM2.2.1, hM2.2.2⟩
  intro s hs
  rcases List.mem_append.mp hs with hs | hs
  · exact hM2.1 s hs
  · rcases List.mem_singleton.mp hs with rfl
    exact hcount

/-! ## Neighbourhood characterisation and `add_knowledge` bookkeeping -/

theorem mem_neighborsOf {h w x y i j : ℕ} :
    (i, j) ∈ neighborsOf h w x y ↔
      (x ≤ i + 1 ∧ i ≤ x + 1 ∧ i < h ∧ y ≤ j + 1 ∧ j ≤ y + 1 ∧ j < w ∧
        (i, j) ≠ (x, y)) := by
  unfold neighborsOf
  rw [Finset.mem_erase]
  constructor
  · rintro ⟨hne, hm⟩
    rw [Finset.mem_product] at hm
    simp only [Finset.mem_Ico, lt_min_iff] at hm
    exact ⟨by omega, by omega, by omega, by omega, by omega, by omega, hne⟩
  · rintro ⟨h1, h2, h3, h4, h5, h6, hne⟩
    refine ⟨hne, ?_⟩
    rw [Finset.mem_product]
    simp only [Finset.mem_Ico, lt_min_iff]
    omega

theorem add_knowledge_moves_safes (st : MinesweeperAI) (cell : Cell) (count : ℤ)
    (fuel : ℕ) (r : MinesweeperAI) (h : st.add_knowledge cell count fuel = some r) :
    r.moves_made = insert cell st.moves_made ∧ cell ∈ r.safes := by
  unfold MinesweeperAI.add_knowledge at h
  dsimp only at h
  have hfr := frame_trans (frame_update _) (frame_akLoop fuel _ r h)
  obtain ⟨-, -, hmov, hsaf, -⟩ := hfr
  exact ⟨hmov, hsaf (Finset.mem_insert_self cell _)⟩

/-! ## `make_safe_move` -/

theorem make_safe_move_spec (st : MinesweeperAI) :
    (st.make_safe_move = none ↔ st.safes \ st.moves_made = ∅) ∧
      ∀ c : Cell, st.make_safe_move = some c → c ∈ st.safes ∧ c ∉ st.moves_made := by
  constructor
  · unfold MinesweeperAI.make_safe_move
    rw [List.find?_eq_none]
    constructor
    · intro h
      rw [Finset.eq_empty_iff_forall_not_mem]
      intro c hc
      rw [Finset.mem_sdiff] at hc
      have h2 := h c (mem_cellList.mpr hc.1)
      rw [decide_eq_true_eq] at h2
      exact hc.2 (not_not.mp h2)
    · intro h c hc
      rw [decide_eq_true_eq]
      intro hcm
      have hmem : c ∈ st.safes \ st.moves_made :=
        Finset.mem_sdiff.mpr ⟨mem_cellList.mp hc, hcm⟩
      rw [h] at hmem
      exact absurd hmem (Finset.not_mem_empty c)
  · intro c hc
    unfold MinesweeperAI.make_safe_move at hc
    have h1 := List.find?_some hc
    have h2 := List.mem_of_find?_eq_some hc
    rw [decide_eq_true_eq] at h1
    exact ⟨mem_cellList.mp h2, h1⟩

/-! ## Exact shape of the marking effect on the knowledge list -/

theorem mark_safe_knowledge_shape (st : MinesweeperAI) (c : Cell) :
    (st.mark_safe c).1.knowledge =
      st.knowledge.map (fun s => ⟨s.cells.erase c, s.count⟩) := by
  rw [mark_safe_knowledge]
  apply List.map_congr_left
  intro s _
  exact Sentence.mark_safe_fst s c

theorem mark_mine_knowledge_shape (st : MinesweeperAI) (c : Cell) :
    (st.mark_mine c).1.knowledge =
      st.knowledge.map
        (fun s => ⟨s.cells.erase c, if c ∈ s.cells then s.count - 1 else s.count⟩) := by
  rw [mark_mine_knowledge]
  apply List.map_congr_left
  intro s _
  exact Sentence.mark_mine_fst s c

/-! ## Claim theorems -/

/-- C1 (amended): for every call to `inference()`, the returned list contains
exactly the subset-difference derivations: a sentence `D` is returned iff some
ordered pair `(A, B)` of distinct (by Statement equality) sentences of the
knowledge list, both with non-empty cell sets and with `B`'s cells a subset of
`A`'s, has `D = Statement(A.cells − B.cells, A.count − B.count)` and `D` is
not equal to any statement already in the knowledge list.  Candidates already
produced earlier in the same pass are NOT deduplicated (see the
counterexample), so the same derivation may occur several times.  Moreover
`inference()` never inserts anything into the knowledge list: every sentence
of the resulting knowledge list was already present. -/
theorem claim1_inference_output (st : MinesweeperAI) (D : Sentence) :
    (D ∈ st.inference.2 ↔ derivableFrom st.knowledge D) ∧
      ∀ s ∈ st.inference.1.knowledge, s ∈ st.knowledge := by
  constructor
  · exact mem_inferenceNew
  · intro s hs
    exact (mem_inference_knowledge.mp hs).1

/-- C1 counterexample: on a concrete knowledge list, one `inference()` pass
emits the very same derived statement twice — once from each of two ordered
pairs — even though the second occurrence was already produced earlier in the
pass (and is not in the knowledge list).  This refutes the claim's clause that
a candidate already produced earlier in the same pass is not emitted again. -/
theorem claim1_counterexample :
    exInferState.inference.2 = [exDup, exDup] ∧ exDup ∉ exInferState.knowledge := by
  decide

/-- C1 witness: the characterisation applied at the concrete state, in both
directions. -/
theorem claim1_witness :
    derivableFrom exInferState.knowledge exDup ∧
      (⟨{(0,0),(0,1)}, 1⟩ : Sentence) ∈ exInferState.knowledge :=
  ⟨((claim1_inference_output exInferState exDup).1).mp (by decide),
   (claim1_inference_output exInferState ⟨{(0,0),(0,1)}, 1⟩).2
     ⟨{(0,0),(0,1)}, 1⟩ (by decide)⟩

/-- C2: after `update()` returns, every cell of any statement satisfying
either saturation condition (`count == 0` or `count == |cells|`) has been
removed from that statement's cell set: no live (non-empty) statement
satisfies either condition. -/
theorem claim2_saturation_extracted (st : MinesweeperAI) :
    ∀ s ∈ st.update.knowledge,
      (s.count = 0 ∨ (s.cells.card : ℤ) = s.count) → s.cells = ∅ :=
  fix_saturation st.update (update_fix st)

/-- C2 witness: a concrete `update` run on a count-zero sentence, whose cells
are indeed all extracted. -/
theorem claim2_witness : (⟨∅, 0⟩ : Sentence).cells = ∅ :=
  claim2_saturation_extracted exUpd ⟨∅, 0⟩ (by decide) (Or.inl rfl)

/-- C3: when `add_knowledge` returns, every cell recorded in the safes set or
the mines set is absent from the cell set of every statement in the knowledge
list. -/
theorem claim3_known_cells_absent (st : MinesweeperAI) (cell : Cell) (count : ℤ)
    (fuel : ℕ) (r : MinesweeperAI) (h : st.add_knowledge cell count fuel = some r) :
    ∀ s ∈ r.knowledge, ∀ c ∈ s.cells, c ∉ r.safes ∧ c ∉ r.mines :=
  fix_absent r (add_knowledge_result st cell count fuel r h).1

/-- C3 witness: a concrete successful `add_knowledge` run, instantiated at a
concrete sentence and cell. -/
theorem claim3_witness :
    ((0,1) : Cell) ∉ (exRun.getD (initAI 2 2)).safes ∧
      ((0,1) : Cell) ∉ (exRun.getD (initAI 2 2)).mines :=
  claim3_known_cells_absent (initAI 2 2) (0,0) 1 0 (exRun.getD (initAI 2 2))
    (by decide) ⟨{(0,1),(1,0),(1,1)}, 1⟩ (by decide) (0,1) (by decide)

/-- C4: under truthful inputs (every sentence of the state counts exactly its
mines with respect to the real mine set `M`, the revealed cell is not a mine,
and the supplied count is the true number of mines among the in-bounds
neighbours), every statement of the knowledge list at rest after
`add_knowledge` satisfies `0 ≤ count ≤ |cells|`. -/
theorem claim4_count_bounds (st : MinesweeperAI) (M : Finset Cell) (cell : Cell)
    (count : ℤ) (fuel : ℕ) (r : MinesweeperAI)
    (hM : soundState st M) (hcell : cell ∉ M)
    (hcount : count = ((neighborsOf st.height st.width cell.1 cell.2 ∩ M).card : ℤ))
    (h : st.add_knowledge cell count fuel = some r) :
    ∀ s ∈ r.knowledge, 0 ≤ s.count ∧ s.count ≤ (s.cells.card : ℤ) := by
  intro s hs
  exact soundFor_bounds
    ((sound_add_knowledge st M cell count fuel r hM hcell hcount h).1 s hs)

/-- C4 witness: a concrete truthful `add_knowledge` run on a 2×2 board with
one mine, instantiated at the resulting sentence. -/
theorem claim4_witness :
    0 ≤ (⟨{(0,1),(1,0),(1,1)}, 1⟩ : Sentence).count ∧
      (⟨{(0,1),(1,0),(1,1)}, 1⟩ : Sentence).count ≤
        ((⟨{(0,1),(1,0),(1,1)}, 1⟩ : Sentence).cells.card : ℤ) :=
  claim4_count_bounds (initAI 2 2) exMines (0,0) 1 0 (exRun.getD (initAI 2 2))
    (by decide) (by decide) (by decide) (by decide)
    ⟨{(0,1),(1,0),(1,1)}, 1⟩ (by decide)

/-- C5: under truthful inputs, after each mutating public call
(`add_knowledge`, `mark_safe` on a non-mine cell, `mark_mine` on a mine cell)
the safes set and the mines set are disjoint.  (`make_safe_move` and
`make_random_move` are pure queries in this embedding and cannot affect the
two sets.) -/
theorem claim5_disjoint (st : MinesweeperAI) (M : Finset Cell) (hM : soundState st M) :
    (∀ (cell : Cell) (count : ℤ) (fuel : ℕ) (r : MinesweeperAI), cell ∉ M →
        count = ((neighborsOf st.height st.width cell.1 cell.2 ∩ M).card : ℤ) →
        st.add_knowledge cell count fuel = some r → r.safes ∩ r.mines = ∅) ∧
      (∀ c ∉ M, (st.mark_safe c).1.safes ∩ (st.mark_safe c).1.mines = ∅) ∧
      (∀ c ∈ M, (st.mark_mine c).1.safes ∩ (st.mark_mine c).1.mines = ∅) := by
  have disj : ∀ st' : MinesweeperAI, soundState st' M → st'.safes ∩ st'.mines = ∅ := by
    intro st' hs
    rw [Finset.eq_empty_iff_forall_not_mem]
    intro c hc
    rw [Finset.mem_inter] at hc
    have hmem : c ∈ st'.safes ∩ M := Finset.mem_inter.mpr ⟨hc.1, hs.2.2 hc.2⟩
    rw [hs.2.1] at hmem
    exact absurd hmem (Finset.not_mem_empty c)
  exact ⟨fun cell count fuel r hcell hcount h =>
      disj r (sound_add_knowledge st M cell count fuel r hM hcell hcount h),
    fun c hc => disj _ (sound_mark_safe hM hc),
    fun c hc => disj _ (sound_mark_mine hM hc)⟩

/-- C5 witness: all three mutating public calls exercised on concrete truthful
inputs. -/
theorem claim5_witness :
    (exRun.getD (initAI 2 2)).safes ∩ (exRun.getD (initAI 2 2)).mines = ∅ ∧
      ((initAI 2 2).mark_safe (0,1)).1.safes ∩
        ((initAI 2 2).mark_safe (0,1)).1.mines = ∅ ∧
      ((initAI 2 2).mark_mine (1,1)).1.safes ∩
        ((initAI 2 2).mark_mine (1,1)).1.mines = ∅ :=
  ⟨(claim5_disjoint (initAI 2 2) exMines (by decide)).1 (0,0) 1 0
      (exRun.getD (initAI 2 2)) (by decide) (by decide) (by decide),
   (claim5_disjoint (initAI 2 2) exMines (by decide)).2.1 (0,1) (by decide),
   (claim5_disjoint (initAI 2 2) exMines (by decide)).2.2 (1,1) (by decide)⟩

/-- C6 (amended): a statement emitted by an `inference()` pass is never equal
to a statement already in the knowledge list, so duplicates are never created
at the moment a derived statement is checked for insertion; nevertheless the
knowledge list can come to contain two equal statements (see the
counterexample), because in-place shrinking of existing statements during
propagation can make two of them equal, and equal derivations within one
inference pass are all appended. -/
theorem claim6_not_already_present (st : MinesweeperAI) (D : Sentence)
    (h : D ∈ st.inference.2) : D ∉ st.knowledge :=
  inferenceNew_not_mem h

/-- C6 counterexample: a truthful game reachable purely through public
`add_knowledge` calls (4×3 board, mines `exMinesC6`, each revealed cell is
safe and is reported with its true neighbour mine count) whose final
knowledge list contains two equal statements. -/
theorem claim6_counterexample :
    ((0,0) ∉ exMinesC6 ∧ (2,1) ∉ exMinesC6 ∧ (2,0) ∉ exMinesC6 ∧
        (3,1) ∉ exMinesC6) ∧
      (((neighborsOf 4 3 0 0 ∩ exMinesC6).card : ℤ) = 1 ∧
        ((neighborsOf 4 3 2 1 ∩ exMinesC6).card : ℤ) = 2 ∧
        ((neighborsOf 4 3 2 0 ∩ exMinesC6).card : ℤ) = 0 ∧
        ((neighborsOf 4 3 3 1 ∩ exMinesC6).card : ℤ) = 1) ∧
      exRunC6.isSome ∧ ¬ (exRunC6.getD (initAI 4 3)).knowledge.Nodup := by
  decide

/-- C6 witness: the amended no-duplicate-insertion property at a concrete
state. -/
theorem claim6_witness : exDup ∉ exInferState.knowledge :=
  claim6_not_already_present exInferState exDup (by decide)

/-- C7: `add_knowledge(cell, count)` appends exactly the statement over the
in-bounds neighbours of `cell` (excluding `cell` itself) with the given
count — the membership characterisation makes no reference to the safes or
mines sets, i.e. there is no pre-filtering — and on return the cell has been
recorded in `moves_made` and marked safe, the state is a propagation
fixpoint, and the final inference call derived nothing new. -/
theorem claim7_add_knowledge (st : MinesweeperAI) (cell : Cell) (count : ℤ)
    (fuel : ℕ) :
    (∀ i j : ℕ, (i, j) ∈ neighborsOf st.height st.width cell.1 cell.2 ↔
        (cell.1 ≤ i + 1 ∧ i ≤ cell.1 + 1 ∧ i < st.height ∧
          cell.2 ≤ j + 1 ∧ j ≤ cell.2 + 1 ∧ j < st.width ∧ (i, j) ≠ cell)) ∧
      ∀ r : MinesweeperAI, st.add_knowledge cell count fuel = some r →
        r.moves_made = insert cell st.moves_made ∧ cell ∈ r.safes ∧
          updatePass r = (r, 0) ∧
          ∃ stp : MinesweeperAI, stp.inference = (r, ([] : List Sentence)) := by
  constructor
  · intro i j
    exact mem_neighborsOf
  · intro r h
    obtain ⟨hm, hs⟩ := add_knowledge_moves_safes st cell count fuel r h
    obtain ⟨hfix, hstp⟩ := add_knowledge_result st cell count fuel r h
    exact ⟨hm, hs, hfix, hstp⟩

/-- C7 witness: a concrete successful `add_knowledge` run. -/
theorem claim7_witness :
    (exRun.getD (initAI 2 2)).moves_made = insert (0,0) (initAI 2 2).moves_made ∧
      (0,0) ∈ (exRun.getD (initAI 2 2)).safes ∧
      updatePass (exRun.getD (initAI 2 2)) = (exRun.getD (initAI 2 2), 0) ∧
      ∃ stp : MinesweeperAI,
        stp.inference = (exRun.getD (initAI 2 2), ([] : List Sentence)) :=
  (claim7_add_knowledge (initAI 2 2) (0,0) 1 0).2 (exRun.getD (initAI 2 2))
    (by decide)

/-- C8: `update()` terminates on every state: fuel `phi st + 1` suffices for
the pass loop (which by definition exits on the first zero-mutation pass),
because every pass removes exactly its counter's worth of cell memberships
from the total `phi`, a non-negative integer, so a pass with at least one
mutation strictly decreases it. -/
theorem claim8_update_terminates (st : MinesweeperAI) :
    (updateLoop (phi st + 1) st).isSome ∧
      phi (updatePass st).1 + (updatePass st).2 = phi st :=
  ⟨updateLoop_some_of_lt (phi st + 1) st (by omega), updatePass_phi st⟩

/-- C9: `make_safe_move()` returns `none` exactly when `safes − moves_made`
is empty, and otherwise returns a cell that is in `safes` and not in
`moves_made`. -/
theorem claim9_make_safe_move (st : MinesweeperAI) :
    (st.make_safe_move = none ↔ st.safes \ st.moves_made = ∅) ∧
      ∀ c : Cell, st.make_safe_move = some c → c ∈ st.safes ∧ c ∉ st.moves_made :=
  make_safe_move_spec st

/-- C9 witness: on a concrete state with one known-safe unplayed cell, the
returned move is safe and unplayed. -/
theorem claim9_witness :
    ((0,1) : Cell) ∈ exMove.safes ∧ ((0,1) : Cell) ∉ exMove.moves_made :=
  (claim9_make_safe_move exMove).2 (0,1) (by decide)

/-- C10: `mark_safe(c)` leaves `mines` and `moves_made` unchanged and changes
each statement only by erasing `c` from its cell set with the count
unchanged; `mark_mine(c)` leaves `safes` and `moves_made` unchanged and
changes each statement only by erasing `c` and, when `c` was present,
decrementing that statement's count by one. -/
theorem claim10_mark_frame (st : MinesweeperAI) (c : Cell) :
    (st.mark_safe c).1.mines = st.mines ∧
      (st.mark_safe c).1.moves_made = st.moves_made ∧
      (st.mark_safe c).1.knowledge =
        st.knowledge.map (fun s => ⟨s.cells.erase c, s.count⟩) ∧
      (st.mark_mine c).1.safes = st.safes ∧
      (st.mark_mine c).1.moves_made = st.moves_made ∧
      (st.mark_mine c).1.knowledge =
        st.knowledge.map
          (fun s => ⟨s.cells.erase c, if c ∈ s.cells then s.count - 1 else s.count⟩) :=
  ⟨rfl, rfl, mark_safe_knowledge_shape st c, rfl, rfl, mark_mine_knowledge_shape st c⟩
